import Mathlib

/-!
Verification of two modular-inverse implementations: the classic Extended
Euclidean algorithm (`ClassicInverse.mod_inv`, general modulus `n ≥ 2`,
optional result) and the binary Extended Euclidean algorithm
(`BinaryInverse.mod_inv`, odd modulus, division-free).

The Rust loops are embedded as fuel-indexed structural recursions over `Int`.
Rust's `/` and `%` on `i64` truncate toward zero, so they are modelled by
`Int.tdiv` / `Int.tmod`; Rust's arithmetic shift `>> 1` is floor division by
two (`Int` `/ 2`, i.e. `ediv`), and `& 1` is the two's-complement low bit
(`% 2`, i.e. `emod`).
-/

namespace ClassicInverse

/-- Loop of the classic extended Euclidean `mod_inv`, on state
`(s, x_s, b, x_b)`.  Each iteration with `s > 0` computes `q = b / s`
(truncating division, as in Rust) and updates
`(s, x_s, b, x_b) := (b - q*s, x_b - q*x_s, s, x_s)`.
The `fuel` argument bounds the number of iterations; since `s` strictly
decreases and stays non-negative, fuel `s.toNat` is always enough. -/
def classicGo : Nat → Int × Int × Int × Int → Int × Int × Int × Int
  | 0, st => st
  | fuel+1, (s, x_s, b, x_b) =>
    if 0 < s then
      let q := b.tdiv s
      classicGo fuel (b - q * s, x_b - q * x_s, s, x_s)
    else (s, x_s, b, x_b)

/-- `mod_inv` from "Proof and Implementation of Euclidean Inversion.rs".
The outer `Option` models the panic: `none` is the `panic!` on `n < 2`;
`some none` is the returned `None` (no inverse); `some (some v)` is `Some(v)`.
The initial value of `s` is `x' = ((x % n) + n) % n` with Rust's truncating
`%`, and the loop runs until `s = 0`, which takes at most `x'` iterations. -/
def mod_inv (x n : Int) : Option (Option Int) :=
  if n < 2 then none
  else
    let xr := (x.tmod n + n).tmod n
    let st := classicGo xr.toNat (xr, 1, n, 0)
    some (if st.2.2.1 = 1 then some (if st.2.2.2 < 0 then st.2.2.2 + n else st.2.2.2)
          else none)

end ClassicInverse

namespace BinaryInverse

/-- Body of one iteration of the binary extended Euclidean loop, on state
`(a, b, u, v)` with modulus `n`.  Mirrors the Rust:
if `a` is odd, subtract the smaller of `a, b` from the larger (swapping so the
difference lands in `a`), update the Bézout-style coefficients likewise and
re-normalize `u` into `[0, n)`; then halve `a` and halve `u` modulo `n`
(adding `n` first when `u` is odd). -/
def binStep (n a b u v : Int) : Int × Int × Int × Int :=
  let (a, b, u, v) :=
    if a % 2 > 0 then
      let (a, b, u, v) :=
        if a ≥ b then (a - b, b, u - v, v)
        else (b - a, a, v - u, u)
      let u := if u < 0 then u + n else u
      (a, b, u, v)
    else (a, b, u, v)
  let a := a / 2
  let u := if u % 2 > 0 then u + n else u
  let u := u / 2
  (a, b, u, v)

/-- Loop of the binary extended Euclidean `mod_inv`: iterate `binStep`
while `a > 0`, bounded by `fuel`.  Under the algorithm's precondition the
quantity `a + b` strictly decreases each iteration, so fuel `(a + b).toNat`
is enough. -/
def binGo (n : Int) : Nat → Int × Int × Int × Int → Int × Int × Int × Int
  | 0, st => st
  | fuel+1, (a, b, u, v) =>
    if 0 < a then binGo n fuel (binStep n a b u v)
    else (a, b, u, v)

/-- `mod_inv` from "Proof and Implementation of Binary Euclidean
Inversion.rs": start from `(a, b, u, v) = (x, n, 1, 0)`, loop while `a > 0`,
return `v`. -/
def mod_inv (x n : Int) : Int :=
  (binGo n (x + n).toNat (x, n, 1, 0)).2.2.2

end BinaryInverse

/-- Loop invariant of the classic extended Euclidean loop for reduced input
`x'` and modulus `n`, on state `(s, x_s, b, x_b)`: the remainders are ordered
`0 ≤ s < b`; `s` and `b` are congruent to `x_s * x'` and `x_b * x'` modulo
`n`; the gcd of the pair equals `gcd x' n`; the two Bézout coefficients have
opposite (or zero) signs; the exact size identity `|x_s|*b + |x_b|*s = n`
holds, whence `|x_b| ≤ n`. -/
def ClassicInv (xr n s x_s b x_b : Int) : Prop :=
  0 ≤ s ∧ s < b ∧
  Int.ModEq n s (x_s * xr) ∧ Int.ModEq n b (x_b * xr) ∧
  Int.gcd s b = Int.gcd xr n ∧
  x_s * x_b ≤ 0 ∧
  |x_s| * b + |x_b| * s = n ∧
  |x_b| ≤ n

/-- Precondition of the binary algorithm: `n` odd, `n > 1`, `x` positive and
coprime to `n`. -/
def BinPre (x n : Int) : Prop :=
  0 < x ∧ n % 2 = 1 ∧ 1 < n ∧ Int.gcd x n = 1

/-- The six loop invariants of the binary extended Euclidean loop on state
`(a, b, u, v)`: (1) `b` odd; (2) `u < n` and `v < n`; (3) `a ≡ u*x (mod n)`;
(4) `b ≡ v*x (mod n)`; (5) `gcd a b = gcd x n`; (6) `a`, `b`, `u`, `v`
non-negative. -/
def BinInv (x n a b u v : Int) : Prop :=
  b % 2 = 1 ∧
  u < n ∧ v < n ∧
  Int.ModEq n a (u * x) ∧
  Int.ModEq n b (v * x) ∧
  Int.gcd a b = Int.gcd x n ∧
  0 ≤ a ∧ 0 ≤ b ∧ 0 ≤ u ∧ 0 ≤ v

instance (x n : Int) : Decidable (BinPre x n) := by
  unfold BinPre; infer_instance

instance (x n a b u v : Int) : Decidable (BinInv x n a b u v) := by
  unfold BinInv Int.ModEq; infer_instance

/-- Truncating remainder by a positive modulus is greater than `-n`. -/
lemma tmod_gt_neg (x n : Int) (hn : 0 < n) : -n < x.tmod n := by
  rcases le_or_lt 0 x with hx | hx
  · have := Int.tmod_nonneg n hx; linarith
  · have h1 : (-x).tmod n = -x.tmod n := by
      rw [Int.tmod_def, Int.tmod_def, Int.neg_tdiv]; ring
    have h2 : (-x).tmod n < n := Int.tmod_lt_of_pos _ hn
    linarith

/-- The Rust normalization `((x % n) + n) % n` (truncating `%`) equals the
Euclidean remainder `x % n` for positive `n`. -/
lemma tmod_tmod_normalize_eq (x n : Int) (hn : 0 < n) : (x.tmod n + n).tmod n = x % n := by
  have h1 : 0 ≤ x.tmod n + n := by have := tmod_gt_neg x n hn; linarith
  rw [Int.tmod_eq_emod h1 (le_of_lt hn),
    show x.tmod n + n = x.tmod n + n * 1 by ring, Int.add_mul_emod_self_left,
    Int.tmod_def, show x - n * x.tdiv n = x + n * (-x.tdiv n) by ring,
    Int.add_mul_emod_self_left]

/-- Adding a multiple of `b` to `a` does not change `gcd a b`. -/
lemma gcd_add_mul (a b k : Int) : Int.gcd (a + b * k) b = Int.gcd a b := by
  apply Nat.dvd_antisymm
  · have h1 : (Int.gcd (a + b * k) b : Int) ∣ a + b * k := Int.gcd_dvd_left
    have h2 : (Int.gcd (a + b * k) b : Int) ∣ b := Int.gcd_dvd_right
    have h3 : (Int.gcd (a + b * k) b : Int) ∣ a := by
      have h4 := dvd_sub h1 (h2.mul_right k)
      simpa using h4
    exact Int.natCast_dvd_natCast.mp (Int.dvd_gcd h3 h2)
  · have h1 : (Int.gcd a b : Int) ∣ a := Int.gcd_dvd_left
    have h2 : (Int.gcd a b : Int) ∣ b := Int.gcd_dvd_right
    exact Int.natCast_dvd_natCast.mp (Int.dvd_gcd (dvd_add h1 (h2.mul_right k)) h2)

/-- Reducing the first argument modulo the second preserves the gcd. -/
lemma gcd_emod_left (x n : Int) : Int.gcd (x % n) n = Int.gcd x n := by
  rw [Int.emod_def, show x - n * (x / n) = x + n * (-(x / n)) by ring, gcd_add_mul]

/-- Subtracting the second argument from the first preserves the gcd. -/
lemma gcd_sub_right (a b : Int) : Int.gcd (a - b) b = Int.gcd a b := by
  rw [show a - b = a + b * (-1) by ring, gcd_add_mul]

/-- An even number can be halved without changing its gcd with an odd one. -/
lemma gcd_two_mul_left_of_odd (c b : Int) (hb : b % 2 = 1) :
    Int.gcd (2 * c) b = Int.gcd c b := by
  rw [Int.gcd_def, Int.gcd_def, Int.natAbs_mul]
  have h2 : (2 : Int).natAbs = 2 := rfl
  rw [h2]
  apply Nat.Coprime.gcd_mul_left_cancel
  rw [Nat.coprime_two_left, Nat.odd_iff]
  omega

/-- Modulo an odd positive `n`, the factor `2` can be cancelled from a
congruence. -/
lemma modeq_cancel_two {n a b : Int} (hodd : n % 2 = 1) (hpos : 0 < n)
    (h : Int.ModEq n (2 * a) (2 * b)) : Int.ModEq n a b := by
  have hg : Int.gcd n 2 = 1 := by
    rw [Int.gcd_comm, Int.gcd_def]
    have h2 : (2 : Int).natAbs = 2 := rfl
    rw [h2]
    apply Nat.coprime_two_left.mpr
    rw [Nat.odd_iff]
    omega
  have h3 := Int.ModEq.cancel_left_div_gcd hpos h
  rw [hg] at h3
  simpa using h3

/-- Magnitude of `p - q * r` when `p` and `r` have opposite signs and
`q ≥ 0`: the two contributions add up. -/
lemma abs_sub_mul_of_nonpos (p r q : Int) (hq : 0 ≤ q) (hpr : p * r ≤ 0) :
    |p - q * r| = |p| + q * |r| := by
  rcases mul_nonpos_iff.mp hpr with ⟨hp, hr⟩ | ⟨hp, hr⟩
  · rw [abs_of_nonneg hp, abs_of_nonpos hr,
      abs_of_nonneg (by nlinarith : (0:Int) ≤ p - q * r)]
    ring
  · rw [abs_of_nonpos hp, abs_of_nonneg hr,
      abs_of_nonpos (by nlinarith : p - q * r ≤ (0:Int))]
    ring

namespace ClassicInverse

/-- The invariant holds on entry to the classic loop. -/
lemma classicInv_init (x n : Int) (hn : 2 ≤ n) :
    ClassicInv (x % n) n (x % n) 1 n 0 := by
  have hn0 : (0:Int) < n := by omega
  refine ⟨Int.emod_nonneg x (by omega), Int.emod_lt_of_pos x hn0, ?_, ?_, rfl,
    by simp, by simp, by simp; omega⟩
  · show Int.ModEq n (x % n) (1 * (x % n))
    rw [one_mul]
  · show Int.ModEq n n (0 * (x % n))
    rw [zero_mul]
    show n % n = 0 % n
    simp

/-- One iteration of the classic loop preserves the invariant. -/
lemma classicInv_step {xr n s x_s b x_b : Int} (hs : 0 < s)
    (h : ClassicInv xr n s x_s b x_b) :
    ClassicInv xr n (b - b.tdiv s * s) (x_b - b.tdiv s * x_s) s x_s := by
  obtain ⟨h0, hsb, hcs, hcb, hg, hsign, hid, hxb⟩ := h
  have hb0 : 0 < b := lt_trans hs hsb
  have hq0 : 0 ≤ b.tdiv s := Int.tdiv_nonneg (le_of_lt hb0) (le_of_lt hs)
  have hrem : b - b.tdiv s * s = b.tmod s := by rw [Int.tmod_def]; ring
  have hr0 : 0 ≤ b - b.tdiv s * s := by
    rw [hrem]; exact Int.tmod_nonneg _ (le_of_lt hb0)
  have hrlt : b - b.tdiv s * s < s := by rw [hrem]; exact Int.tmod_lt_of_pos _ hs
  refine ⟨hr0, hrlt, ?_, hcs, ?_, ?_, ?_, ?_⟩
  · have hm : Int.ModEq n (b - b.tdiv s * s) (x_b * xr - b.tdiv s * (x_s * xr)) :=
      Int.ModEq.sub hcb (Int.ModEq.mul_left (b.tdiv s) hcs)
    have heq : x_b * xr - b.tdiv s * (x_s * xr) = (x_b - b.tdiv s * x_s) * xr := by
      ring
    rwa [heq] at hm
  · have hg1 : Int.gcd (b - b.tdiv s * s) s = Int.gcd b s := by
      rw [show b - b.tdiv s * s = b + s * (-b.tdiv s) by ring, gcd_add_mul]
    rw [hg1, Int.gcd_comm, hg]
  · have hsq : 0 ≤ b.tdiv s * (x_s * x_s) := mul_nonneg hq0 (mul_self_nonneg x_s)
    nlinarith [hsign, hsq]
  · have habs : |x_b - b.tdiv s * x_s| = |x_b| + b.tdiv s * |x_s| := by
      apply abs_sub_mul_of_nonpos x_b x_s (b.tdiv s) hq0
      nlinarith [hsign]
    rw [habs]
    linear_combination hid
  · have hb1 : 1 ≤ b := hb0
    nlinarith [abs_nonneg x_s, abs_nonneg x_b, hid, h0]

/-- Running the classic loop from an invariant state with enough fuel ends
with `s = 0` and the invariant still holding. -/
lemma classicGo_inv (xr n : Int) (fuel : Nat) :
    ∀ s x_s b x_b : Int, ClassicInv xr n s x_s b x_b → s.toNat ≤ fuel →
      (classicGo fuel (s, x_s, b, x_b)).1 = 0 ∧
      ClassicInv xr n (classicGo fuel (s, x_s, b, x_b)).1
        (classicGo fuel (s, x_s, b, x_b)).2.1
        (classicGo fuel (s, x_s, b, x_b)).2.2.1
        (classicGo fuel (s, x_s, b, x_b)).2.2.2 := by
  induction fuel with
  | zero =>
    intro s x_s b x_b h hf
    have hs0 : s = 0 := by have := h.1; omega
    subst hs0
    exact ⟨rfl, h⟩
  | succ fuel ih =>
    intro s x_s b x_b h hf
    by_cases hs : 0 < s
    · have hstep := classicInv_step hs h
      have hfuel : (b - b.tdiv s * s).toNat ≤ fuel := by
        have h1 := hstep.1
        have h2 := hstep.2.1
        omega
      have hres := ih _ _ _ _ hstep hfuel
      simpa [classicGo, hs] using hres
    · have hs0 : s = 0 := by have := h.1; omega
      subst hs0
      have hgo : classicGo (fuel+1) (0, x_s, b, x_b) = (0, x_s, b, x_b) := by
        simp [classicGo]
      rw [hgo]
      exact ⟨rfl, h⟩

/-- At loop exit the invariant forces `b = gcd xr n`, the Bézout congruence
`b ≡ x_b * xr (mod n)`, and the bound `|x_b| ≤ n`. -/
lemma classicInv_exit {xr n s x_s b x_b : Int} (hs : s = 0)
    (h : ClassicInv xr n s x_s b x_b) :
    b = (Int.gcd xr n : Int) ∧ Int.ModEq n b (x_b * xr) ∧ |x_b| ≤ n := by
  subst hs
  obtain ⟨h0, hsb, hcs, hcb, hg, hsign, hid, hxb⟩ := h
  have hb : b = (Int.gcd 0 b : Int) := by
    rw [Int.gcd_zero_left]
    exact (Int.natAbs_of_nonneg (le_of_lt hsb)).symm
  exact ⟨by rw [hb, hg], hcb, hxb⟩

/-- For `n ≥ 2`, `mod_inv` is the normalized Bézout coefficient produced by
the loop run with seed `x % n` and fuel `(x % n).toNat`. -/
lemma mod_inv_eq (x n : Int) (hn : 2 ≤ n) :
    mod_inv x n =
      some (if (classicGo (x % n).toNat (x % n, 1, n, 0)).2.2.1 = 1
            then some (if (classicGo (x % n).toNat (x % n, 1, n, 0)).2.2.2 < 0
                       then (classicGo (x % n).toNat (x % n, 1, n, 0)).2.2.2 + n
                       else (classicGo (x % n).toNat (x % n, 1, n, 0)).2.2.2)
            else none) := by
  have hn0 : (0:Int) < n := by omega
  simp only [mod_inv, if_neg (show ¬ n < 2 by omega), tmod_tmod_normalize_eq x n hn0]

/-- The final `if x_b < 0 then x_b + n else x_b` normalization lands in
`[0, n)` and is congruent to `x_b`, provided `|x_b| ≤ n` and `x_b ≠ n`. -/
lemma normalized_props {n xb : Int} (hn : 2 ≤ n) (hxb : |xb| ≤ n) (hne : xb ≠ n) :
    0 ≤ (if xb < 0 then xb + n else xb) ∧ (if xb < 0 then xb + n else xb) < n ∧
    Int.ModEq n (if xb < 0 then xb + n else xb) xb := by
  have hb := abs_le.mp hxb
  by_cases hneg : xb < 0
  · rw [if_pos hneg]
    exact ⟨by omega, by omega, Int.add_modEq_right⟩
  · rw [if_neg hneg]
    exact ⟨by omega, by omega, Int.ModEq.refl _⟩

/-- Full behaviour of the classic `mod_inv` for `n ≥ 2`: when `x` and `n` are
coprime it returns `Some v` with `v ∈ [0, n)` and `v * x ≡ 1 (mod n)`;
otherwise it returns `None`. -/
lemma classic_spec (x n : Int) (hn : 2 ≤ n) :
    (Int.gcd x n = 1 →
      ∃ v, mod_inv x n = some (some v) ∧ 0 ≤ v ∧ v < n ∧ v * x % n = 1) ∧
    (Int.gcd x n ≠ 1 → mod_inv x n = some none) := by
  have hn0 : (0:Int) < n := by omega
  have hinit := classicInv_init x n hn
  have hgo := classicGo_inv (x % n) n (x % n).toNat (x % n) 1 n 0 hinit (le_refl _)
  obtain ⟨hs0, hinv⟩ := hgo
  obtain ⟨hb, hcong, hxb⟩ := classicInv_exit hs0 hinv
  rw [gcd_emod_left x n] at hb
  rw [mod_inv_eq x n hn]
  constructor
  · intro h1
    have hb1 : (classicGo (x % n).toNat (x % n, 1, n, 0)).2.2.1 = 1 := by
      rw [hb, h1]; norm_num
    rw [hb1] at hcong
    -- `hcong : 1 ≡ x_b * (x % n) (mod n)`
    have hxbn : (classicGo (x % n).toNat (x % n, 1, n, 0)).2.2.2 ≠ n := by
      intro hceq
      rw [hceq] at hcong
      have h0 : (n * (x % n)) % n = 0 := Int.mul_emod_right n (x % n)
      have h1' : (1:Int) % n = 1 := Int.emod_eq_of_lt (by norm_num) (by omega)
      have h2 : (1:Int) % n = (n * (x % n)) % n := hcong
      omega
    obtain ⟨hv0, hvlt, hvmod⟩ := normalized_props hn hxb hxbn
    refine ⟨_, by rw [if_pos hb1], hv0, hvlt, ?_⟩
    have hchain :
        Int.ModEq n ((if (classicGo (x % n).toNat (x % n, 1, n, 0)).2.2.2 < 0
          then (classicGo (x % n).toNat (x % n, 1, n, 0)).2.2.2 + n
          else (classicGo (x % n).toNat (x % n, 1, n, 0)).2.2.2) * x) 1 := by
      have hstep1 := Int.ModEq.mul_right x hvmod
      have hstep2 :
          Int.ModEq n ((classicGo (x % n).toNat (x % n, 1, n, 0)).2.2.2 * x)
            ((classicGo (x % n).toNat (x % n, 1, n, 0)).2.2.2 * (x % n)) :=
        Int.ModEq.mul_left _ (Int.emod_emod_of_dvd x dvd_rfl ▸ (Int.mod_modEq x n).symm)
      exact (hstep1.trans hstep2).trans hcong.symm
    have h1' : (1:Int) % n = 1 := Int.emod_eq_of_lt (by norm_num) (by omega)
    have h2 : _ % n = (1:Int) % n := hchain
    rw [h1'] at h2
    exact h2
  · intro h1
    have hb1 : (classicGo (x % n).toNat (x % n, 1, n, 0)).2.2.1 ≠ 1 := by
      rw [hb]
      intro hc
      exact h1 (by exact_mod_cast hc)
    rw [if_neg hb1]

/-- Inputs with the same residue give the same classic result. -/
lemma mod_inv_congr (x y n : Int) (hn : 2 ≤ n) (hxy : x % n = y % n) :
    mod_inv x n = mod_inv y n := by
  rw [mod_inv_eq x n hn, mod_inv_eq y n hn, hxy]

end ClassicInverse

namespace BinaryInverse

/-- `binStep` when `a` is even: only the halving part runs. -/
lemma binStep_even (n a b u v : Int) (ha : ¬ a % 2 > 0) :
    binStep n a b u v = (a / 2, b, (if u % 2 > 0 then u + n else u) / 2, v) := by
  simp [binStep, ha]

/-- `binStep` when `a` is odd and `a ≥ b`: subtract `b` from `a`, adjust `u`,
then halve. -/
lemma binStep_odd_ge (n a b u v : Int) (ha : a % 2 > 0) (hab : a ≥ b) :
    binStep n a b u v =
      ((a - b) / 2, b,
        (if (if u - v < 0 then u - v + n else u - v) % 2 > 0
         then (if u - v < 0 then u - v + n else u - v) + n
         else (if u - v < 0 then u - v + n else u - v)) / 2, v) := by
  simp [binStep, ha, hab]

/-- `binStep` when `a` is odd and `a < b`: swap-and-subtract, adjust the
coefficient, then halve. -/
lemma binStep_odd_lt (n a b u v : Int) (ha : a % 2 > 0) (hab : ¬ a ≥ b) :
    binStep n a b u v =
      ((b - a) / 2, a,
        (if (if v - u < 0 then v - u + n else v - u) % 2 > 0
         then (if v - u < 0 then v - u + n else v - u) + n
         else (if v - u < 0 then v - u + n else v - u)) / 2, u) := by
  simp [binStep, ha, hab]

/-- The halving phase preserves the invariant when `a` is even: `a` is halved
exactly, and `u` is multiplied by the inverse of 2 modulo the odd `n`. -/
lemma binHalf_inv {x n a b u v : Int} (hodd : n % 2 = 1) (hn : 1 < n)
    (ha2 : a % 2 = 0) (h : BinInv x n a b u v) :
    BinInv x n (a / 2) b ((if u % 2 > 0 then u + n else u) / 2) v := by
  obtain ⟨hb2, hun, hvn, hca, hcb, hg, ha0, hb0, hu0, hv0⟩ := h
  set u1 := (if u % 2 > 0 then u + n else u) with hu1
  have hu1ev : u1 % 2 = 0 := by rw [hu1]; split_ifs with h1 <;> omega
  have hu1range : 0 ≤ u1 ∧ u1 < 2 * n := by rw [hu1]; split_ifs with h1 <;> omega
  have hu1cong : Int.ModEq n u1 u := by
    rw [hu1]; split_ifs with h1
    · exact Int.add_modEq_right
    · exact Int.ModEq.refl u
  refine ⟨hb2, by omega, hvn, ?_, hcb, ?_, by omega, hb0, by omega, hv0⟩
  · apply modeq_cancel_two hodd (by omega)
    have e1 : 2 * (a / 2) = a := by omega
    have e2 : 2 * (u1 / 2) = u1 := by omega
    have e3 : 2 * (u1 / 2 * x) = u1 * x := by
      rw [show 2 * (u1 / 2 * x) = 2 * (u1 / 2) * x by ring, e2]
    rw [e1, e3]
    exact hca.trans (Int.ModEq.mul_right x hu1cong.symm)
  · have e1 : a = 2 * (a / 2) := by omega
    rw [← hg]
    conv_rhs => rw [e1]
    exact (gcd_two_mul_left_of_odd (a / 2) b hb2).symm

/-- The subtraction phase for odd `a ≥ b` yields an even `a` and preserves
the invariant. -/
lemma binSub_ge_inv {x n a b u v : Int} (hn : 1 < n)
    (ha2 : a % 2 = 1) (hab : a ≥ b) (h : BinInv x n a b u v) :
    (a - b) % 2 = 0 ∧
    BinInv x n (a - b) b (if u - v < 0 then u - v + n else u - v) v := by
  obtain ⟨hb2, hun, hvn, hca, hcb, hg, ha0, hb0, hu0, hv0⟩ := h
  have hu2cong : Int.ModEq n (if u - v < 0 then u - v + n else u - v) (u - v) := by
    split_ifs with h1
    · exact Int.add_modEq_right
    · exact Int.ModEq.refl _
  refine ⟨by omega, hb2, by split_ifs <;> omega, hvn, ?_, hcb, ?_, by omega, hb0,
    by split_ifs <;> omega, hv0⟩
  · have hsub : Int.ModEq n (a - b) (u * x - v * x) := hca.sub hcb
    have e1 : u * x - v * x = (u - v) * x := by ring
    rw [e1] at hsub
    exact hsub.trans (Int.ModEq.mul_right x hu2cong.symm)
  · rw [gcd_sub_right, hg]

/-- The subtraction phase for odd `a < b` (swap-and-subtract) yields an even
`a` and preserves the invariant. -/
lemma binSub_lt_inv {x n a b u v : Int} (hn : 1 < n)
    (ha2 : a % 2 = 1) (hab : ¬ a ≥ b) (h : BinInv x n a b u v) :
    (b - a) % 2 = 0 ∧
    BinInv x n (b - a) a (if v - u < 0 then v - u + n else v - u) u := by
  obtain ⟨hb2, hun, hvn, hca, hcb, hg, ha0, hb0, hu0, hv0⟩ := h
  have hu2cong : Int.ModEq n (if v - u < 0 then v - u + n else v - u) (v - u) := by
    split_ifs with h1
    · exact Int.add_modEq_right
    · exact Int.ModEq.refl _
  refine ⟨by omega, ha2, by split_ifs <;> omega, hun, ?_, hca, ?_, by omega, ha0,
    by split_ifs <;> omega, hu0⟩
  · have hsub : Int.ModEq n (b - a) (v * x - u * x) := hcb.sub hca
    have e1 : v * x - u * x = (v - u) * x := by ring
    rw [e1] at hsub
    exact hsub.trans (Int.ModEq.mul_right x hu2cong.symm)
  · rw [gcd_sub_right, Int.gcd_comm, hg]

/-- One full iteration of the binary loop preserves the six invariants. -/
lemma binStep_inv {x n a b u v : Int} (hodd : n % 2 = 1) (hn : 1 < n)
    (h : BinInv x n a b u v) (ha : 0 < a) :
    BinInv x n (binStep n a b u v).1 (binStep n a b u v).2.1
      (binStep n a b u v).2.2.1 (binStep n a b u v).2.2.2 := by
  by_cases ha2 : a % 2 > 0
  · have ha2' : a % 2 = 1 := by omega
    by_cases hab : a ≥ b
    · obtain ⟨hev, hmid⟩ := binSub_ge_inv hn ha2' hab h
      rw [binStep_odd_ge n a b u v ha2 hab]
      exact binHalf_inv hodd hn hev hmid
    · obtain ⟨hev, hmid⟩ := binSub_lt_inv hn ha2' hab h
      rw [binStep_odd_lt n a b u v ha2 hab]
      exact binHalf_inv hodd hn hev hmid
  · have ha2' : a % 2 = 0 := by omega
    rw [binStep_even n a b u v ha2]
    exact binHalf_inv hodd hn ha2' h

/-- Every iteration of the binary loop strictly decreases `a + b`. -/
lemma binStep_sum {x n a b u v : Int} (h : BinInv x n a b u v) (ha : 0 < a) :
    (binStep n a b u v).1 + (binStep n a b u v).2.1 < a + b := by
  obtain ⟨hb2, _, _, _, _, _, ha0, hb0, _, _⟩ := h
  by_cases ha2 : a % 2 > 0
  · by_cases hab : a ≥ b
    · rw [binStep_odd_ge n a b u v ha2 hab]
      simp only
      omega
    · rw [binStep_odd_lt n a b u v ha2 hab]
      simp only
      omega
  · rw [binStep_even n a b u v ha2]
    simp only
    omega

/-- Running the binary loop from an invariant state with fuel at least
`a + b` ends with `a = 0` and the invariant intact. -/
lemma binGo_inv {x n : Int} (hodd : n % 2 = 1) (hn : 1 < n) (fuel : Nat) :
    ∀ a b u v : Int, BinInv x n a b u v → (a + b).toNat ≤ fuel →
      (binGo n fuel (a, b, u, v)).1 = 0 ∧
      BinInv x n (binGo n fuel (a, b, u, v)).1 (binGo n fuel (a, b, u, v)).2.1
        (binGo n fuel (a, b, u, v)).2.2.1 (binGo n fuel (a, b, u, v)).2.2.2 := by
  induction fuel with
  | zero =>
    intro a b u v h hf
    obtain ⟨hb2, _, _, _, _, _, ha0, hb0, _, _⟩ := h
    omega
  | succ fuel ih =>
    intro a b u v h hf
    by_cases ha : 0 < a
    · have hstep := binStep_inv hodd hn h ha
      have hsum := binStep_sum h ha
      have hnn1 : 0 ≤ (binStep n a b u v).1 := hstep.2.2.2.2.2.2.1
      have hnn2 : 0 ≤ (binStep n a b u v).2.1 := hstep.2.2.2.2.2.2.2.1
      have hf' : ((binStep n a b u v).1 + (binStep n a b u v).2.1).toNat ≤ fuel := by
        omega
      have hres := ih (binStep n a b u v).1 (binStep n a b u v).2.1
        (binStep n a b u v).2.2.1 (binStep n a b u v).2.2.2 hstep hf'
      have hgo : binGo n (fuel+1) (a, b, u, v) = binGo n fuel (binStep n a b u v) := by
        simp [binGo, ha]
      rw [hgo]
      exact hres
    · have ha0 : 0 ≤ a := h.2.2.2.2.2.2.1
      have ha0' : a = 0 := by omega
      subst ha0'
      have hgo : binGo n (fuel+1) ((0:Int), b, u, v) = (0, b, u, v) := by
        simp [binGo]
      rw [hgo]
      refine ⟨rfl, h⟩

/-- At loop exit (`a = 0`) the invariant and coprimality force `b = 1`, so
`v` is the inverse: `v ∈ [0, n)` and `v * x ≡ 1 (mod n)`. -/
lemma binInv_exit {x n b u v : Int} (hn : 1 < n) (hg1 : Int.gcd x n = 1)
    (h : BinInv x n 0 b u v) : b = 1 ∧ 0 ≤ v ∧ v < n ∧ v * x % n = 1 := by
  obtain ⟨hb2, hun, hvn, hca, hcb, hg, ha0, hb0, hu0, hv0⟩ := h
  have hgb : Int.gcd 0 b = Int.gcd x n := hg
  rw [Int.gcd_zero_left, hg1] at hgb
  have hb1 : b = 1 := by omega
  rw [hb1] at hcb
  have h2 : (1:Int) % n = v * x % n := hcb
  have h1' : (1:Int) % n = 1 := Int.emod_eq_of_lt (by norm_num) (by omega)
  exact ⟨hb1, hv0, hvn, by omega⟩

/-- The six invariants hold on entry to the binary loop. -/
lemma binInv_init {x n : Int} (hpre : BinPre x n) : BinInv x n x n 1 0 := by
  obtain ⟨hx, hodd, hn, hg⟩ := hpre
  refine ⟨hodd, by omega, by omega, ?_, ?_, rfl, by omega, by omega, by omega,
    by omega⟩
  · show Int.ModEq n x (1 * x)
    rw [one_mul]
  · show Int.ModEq n n (0 * x)
    rw [zero_mul]
    show n % n = 0 % n
    simp

/-- Full behaviour of the binary `mod_inv` under its precondition: the result
is the inverse of `x` modulo `n`, normalized into `[0, n)`. -/
lemma bin_spec {x n : Int} (hpre : BinPre x n) :
    0 ≤ mod_inv x n ∧ mod_inv x n < n ∧ mod_inv x n * x % n = 1 := by
  have hodd := hpre.2.1
  have hn := hpre.2.2.1
  have hg := hpre.2.2.2
  have hinit := binInv_init hpre
  obtain ⟨hz, hinv⟩ :=
    binGo_inv hodd hn (x + n).toNat x n 1 0 hinit (le_refl _)
  rw [hz] at hinv
  obtain ⟨hb1, hv0, hvn, hvx⟩ := binInv_exit hn hg hinv
  simp only [mod_inv]
  exact ⟨hv0, hvn, hvx⟩

end BinaryInverse

/-- C1: for all integers `x` and all `n ≥ 2` with `gcd(x, n) = 1`,
`ClassicInverse.mod_inv x n` returns `Some v` with `0 ≤ v < n` and
`(v * x) mod n = 1`. -/
theorem classic_roundtrip (x n : Int) (hn : 2 ≤ n) (hg : Int.gcd x n = 1) :
    ∃ v, ClassicInverse.mod_inv x n = some (some v) ∧
      0 ≤ v ∧ v < n ∧ v * x % n = 1 :=
  (ClassicInverse.classic_spec x n hn).1 hg

theorem classic_roundtrip_witness :
    (2:Int) ≤ 10 ∧ Int.gcd 3 10 = 1 ∧
      ∃ v, ClassicInverse.mod_inv 3 10 = some (some v) ∧
        0 ≤ v ∧ v < 10 ∧ v * 3 % 10 = 1 :=
  ⟨by norm_num, by decide, classic_roundtrip 3 10 (by norm_num) (by decide)⟩

/-- C2: for all odd `n > 1` and positive `x` with `gcd(x, n) = 1`,
`BinaryInverse.mod_inv x n` returns a value `v` with `0 ≤ v < n` and
`(v * x) mod n = 1`. -/
theorem binary_roundtrip (x n : Int) (hx : 0 < x) (hodd : n % 2 = 1)
    (hn : 1 < n) (hg : Int.gcd x n = 1) :
    0 ≤ BinaryInverse.mod_inv x n ∧ BinaryInverse.mod_inv x n < n ∧
      BinaryInverse.mod_inv x n * x % n = 1 :=
  BinaryInverse.bin_spec ⟨hx, hodd, hn, hg⟩

theorem binary_roundtrip_witness :
    (0:Int) < 13 ∧ (97:Int) % 2 = 1 ∧ (1:Int) < 97 ∧ Int.gcd 13 97 = 1 ∧
      (0 ≤ BinaryInverse.mod_inv 13 97 ∧ BinaryInverse.mod_inv 13 97 < 97 ∧
        BinaryInverse.mod_inv 13 97 * 13 % 97 = 1) :=
  ⟨by decide, by decide, by decide, by decide,
    binary_roundtrip 13 97 (by decide) (by decide) (by decide) (by decide)⟩

/-- C3: for `n ≥ 2`, `ClassicInverse.mod_inv x n` returns `None` exactly
when `x` and `n` are not coprime. -/
theorem classic_none_iff (x n : Int) (hn : 2 ≤ n) :
    ClassicInverse.mod_inv x n = some none ↔ Int.gcd x n ≠ 1 := by
  constructor
  · intro h hg
    obtain ⟨v, hv, _⟩ := (ClassicInverse.classic_spec x n hn).1 hg
    rw [h] at hv
    simp at hv
  · exact (ClassicInverse.classic_spec x n hn).2

theorem classic_none_iff_witness :
    (2:Int) ≤ 9 ∧ (ClassicInverse.mod_inv 6 9 = some none ↔ Int.gcd 6 9 ≠ 1) :=
  ⟨by norm_num, classic_none_iff 6 9 (by norm_num)⟩

/-- C4: `ClassicInverse.mod_inv x n` hits the panic path (modelled by the
outer `none`) if and only if `n < 2`; for `n ≥ 2` it always returns a
value. -/
theorem classic_panics_iff (x n : Int) :
    ClassicInverse.mod_inv x n = none ↔ n < 2 := by
  simp only [ClassicInverse.mod_inv]
  split_ifs with h
  · simp [h]
  · simp [h]

/-- C5: under the binary precondition, every loop iteration (state with
`a > 0`) preserves the six invariants, and at loop exit (`a = 0`) the
invariants force `b = 1`, so the returned `v` lies in `[0, n)` and satisfies
`v * x ≡ 1 (mod n)`. -/
theorem binary_invariants (x n a b u v : Int) (hpre : BinPre x n)
    (hinv : BinInv x n a b u v) :
    (0 < a →
      BinInv x n (BinaryInverse.binStep n a b u v).1
        (BinaryInverse.binStep n a b u v).2.1
        (BinaryInverse.binStep n a b u v).2.2.1
        (BinaryInverse.binStep n a b u v).2.2.2) ∧
    (a = 0 → b = 1 ∧ 0 ≤ v ∧ v < n ∧ v * x % n = 1) := by
  refine ⟨fun ha => BinaryInverse.binStep_inv hpre.2.1 hpre.2.2.1 hinv ha,
    fun ha0 => ?_⟩
  subst ha0
  exact BinaryInverse.binInv_exit hpre.2.2.1 hpre.2.2.2 hinv

theorem binary_invariants_witness :
    BinPre 13 97 ∧ BinInv 13 97 13 97 1 0 ∧
      ((0 < (13:Int) →
        BinInv 13 97 (BinaryInverse.binStep 97 13 97 1 0).1
          (BinaryInverse.binStep 97 13 97 1 0).2.1
          (BinaryInverse.binStep 97 13 97 1 0).2.2.1
          (BinaryInverse.binStep 97 13 97 1 0).2.2.2) ∧
      ((13:Int) = 0 → (97:Int) = 1 ∧ (0:Int) ≤ 0 ∧ (0:Int) < 97 ∧
        (0:Int) * 13 % 97 = 1)) :=
  ⟨by decide, by decide, binary_invariants 13 97 13 97 1 0 (by decide) (by decide)⟩

/-- C6: both loops are bounded by a strictly decreasing non-negative
measure: in the classic loop an iteration turns `s` into `b - (b/s)*s`,
which stays non-negative and strictly decreases, so the loop reaches
`s = 0` for every `x` and every `n ≥ 2`; in the binary loop, under the
precondition, an iteration keeps `a + b` non-negative and strictly
decreases it, so the loop reaches `a = 0`. -/
theorem loops_terminate (xc nc s b x n a bb u v : Int)
    (hnc : 2 ≤ nc) (hs : 0 < s) (hsb : s < b)
    (hpre : BinPre x n) (hinv : BinInv x n a bb u v) (ha : 0 < a) :
    (0 ≤ b - b.tdiv s * s ∧ b - b.tdiv s * s < s) ∧
    (ClassicInverse.classicGo ((xc.tmod nc + nc).tmod nc).toNat
        ((xc.tmod nc + nc).tmod nc, 1, nc, 0)).1 = 0 ∧
    (0 ≤ (BinaryInverse.binStep n a bb u v).1 +
        (BinaryInverse.binStep n a bb u v).2.1 ∧
      (BinaryInverse.binStep n a bb u v).1 +
        (BinaryInverse.binStep n a bb u v).2.1 < a + bb) ∧
    (BinaryInverse.binGo n (x + n).toNat (x, n, 1, 0)).1 = 0 := by
  have hb0 : 0 < b := lt_trans hs hsb
  have hrem : b - b.tdiv s * s = b.tmod s := by rw [Int.tmod_def]; ring
  have hstep := BinaryInverse.binStep_inv hpre.2.1 hpre.2.2.1 hinv ha
  refine ⟨⟨?_, ?_⟩, ?_, ⟨?_, BinaryInverse.binStep_sum hinv ha⟩, ?_⟩
  · rw [hrem]; exact Int.tmod_nonneg _ (le_of_lt hb0)
  · rw [hrem]; exact Int.tmod_lt_of_pos _ hs
  · rw [tmod_tmod_normalize_eq xc nc (by omega)]
    exact (ClassicInverse.classicGo_inv (xc % nc) nc (xc % nc).toNat
      (xc % nc) 1 nc 0 (ClassicInverse.classicInv_init xc nc hnc) (le_refl _)).1
  · have h1 := hstep.2.2.2.2.2.2.1
    have h2 := hstep.2.2.2.2.2.2.2.1
    omega
  · exact (BinaryInverse.binGo_inv hpre.2.1 hpre.2.2.1 (x + n).toNat x n 1 0
      (BinaryInverse.binInv_init hpre) (le_refl _)).1

theorem loops_terminate_witness :
    (2:Int) ≤ 10 ∧ (0:Int) < 3 ∧ (3:Int) < 10 ∧ BinPre 13 97 ∧
      BinInv 13 97 13 97 1 0 ∧ (0:Int) < 13 ∧
      (((0:Int) ≤ 10 - (10:Int).tdiv 3 * 3 ∧ 10 - (10:Int).tdiv 3 * 3 < 3) ∧
      (ClassicInverse.classicGo (((3:Int).tmod 10 + 10).tmod 10).toNat
          (((3:Int).tmod 10 + 10).tmod 10, 1, 10, 0)).1 = 0 ∧
      ((0:Int) ≤ (BinaryInverse.binStep 97 13 97 1 0).1 +
          (BinaryInverse.binStep 97 13 97 1 0).2.1 ∧
        (BinaryInverse.binStep 97 13 97 1 0).1 +
          (BinaryInverse.binStep 97 13 97 1 0).2.1 < 13 + 97) ∧
      (BinaryInverse.binGo 97 ((13:Int) + 97).toNat (13, 97, 1, 0)).1 = 0) :=
  ⟨by norm_num, by norm_num, by norm_num, by decide, by decide, by norm_num,
    loops_terminate 3 10 3 10 13 97 13 97 1 0 (by norm_num) (by norm_num)
      (by norm_num) (by decide) (by decide) (by norm_num)⟩

/-- C7: for every `x` and every `n ≥ 2`, the Bézout coefficient `x_b` held
by the classic loop at exit is bounded by `|x_b| ≤ n`; consequently, when
the gcd is 1 the returned, normalized value lies in `[0, n)`. -/
theorem classic_bezout_bound (x n : Int) (hn : 2 ≤ n) :
    |(ClassicInverse.classicGo ((x.tmod n + n).tmod n).toNat
        ((x.tmod n + n).tmod n, 1, n, 0)).2.2.2| ≤ n ∧
    (Int.gcd x n = 1 →
      ∃ v, ClassicInverse.mod_inv x n = some (some v) ∧ 0 ≤ v ∧ v < n) := by
  have hn0 : (0:Int) < n := by omega
  rw [tmod_tmod_normalize_eq x n hn0]
  obtain ⟨hs0, hinv⟩ := ClassicInverse.classicGo_inv (x % n) n (x % n).toNat
    (x % n) 1 n 0 (ClassicInverse.classicInv_init x n hn) (le_refl _)
  obtain ⟨hb, hcong, hxb⟩ := ClassicInverse.classicInv_exit hs0 hinv
  refine ⟨hxb, fun hg => ?_⟩
  obtain ⟨v, hv, h0, h1, _⟩ := (ClassicInverse.classic_spec x n hn).1 hg
  exact ⟨v, hv, h0, h1⟩

theorem classic_bezout_bound_witness :
    (2:Int) ≤ 10 ∧
      (|(ClassicInverse.classicGo (((3:Int).tmod 10 + 10).tmod 10).toNat
          (((3:Int).tmod 10 + 10).tmod 10, 1, 10, 0)).2.2.2| ≤ 10 ∧
      (Int.gcd 3 10 = 1 →
        ∃ v, ClassicInverse.mod_inv 3 10 = some (some v) ∧ 0 ≤ v ∧ v < 10)) :=
  ⟨by norm_num, classic_bezout_bound 3 10 (by norm_num)⟩

/-- C8: the classic algorithm first reduces `x` modulo `n`, so inputs
congruent modulo `n` give identical results; in particular
`mod_inv (-7) 10 = mod_inv 3 10 = Some 7`. -/
theorem classic_congruent_inputs (x y n : Int) (hn : 2 ≤ n)
    (hxy : x % n = y % n) :
    ClassicInverse.mod_inv x n = ClassicInverse.mod_inv y n ∧
    ClassicInverse.mod_inv (-7) 10 = ClassicInverse.mod_inv 3 10 ∧
    ClassicInverse.mod_inv (-7) 10 = some (some 7) :=
  ⟨ClassicInverse.mod_inv_congr x y n hn hxy, by decide, by decide⟩

theorem classic_congruent_inputs_witness :
    (2:Int) ≤ 10 ∧ (-7:Int) % 10 = 3 % 10 ∧
      (ClassicInverse.mod_inv (-7) 10 = ClassicInverse.mod_inv 3 10 ∧
      ClassicInverse.mod_inv (-7) 10 = ClassicInverse.mod_inv 3 10 ∧
      ClassicInverse.mod_inv (-7) 10 = some (some 7)) :=
  ⟨by norm_num, by decide,
    classic_congruent_inputs (-7) 3 10 (by norm_num) (by decide)⟩

/-- C9: for every odd `n > 1`, `BinaryInverse.mod_inv 1 n = 1`: the identity
element is its own inverse. -/
theorem binary_identity_inverse (n : Int) (hodd : n % 2 = 1) (hn : 1 < n) :
    BinaryInverse.mod_inv 1 n = 1 := by
  obtain ⟨h0, h1, h2⟩ :=
    BinaryInverse.bin_spec (x := 1) (n := n) ⟨by norm_num, hodd, hn, by simp⟩
  rw [mul_one] at h2
  have h3 := Int.emod_eq_of_lt h0 h1
  omega

theorem binary_identity_inverse_witness :
    (5:Int) % 2 = 1 ∧ (1:Int) < 5 ∧ BinaryInverse.mod_inv 1 5 = 1 :=
  ⟨by norm_num, by norm_num, binary_identity_inverse 5 (by norm_num) (by norm_num)⟩

/-- C10: for every integer `n`, `BinaryInverse.mod_inv 0 n` returns `0`
immediately: the loop guard `a > 0` fails at entry, so `v` keeps its initial
value `0` even though the precondition `x > 0` is violated. -/
theorem binary_zero_input (n : Int) : BinaryInverse.mod_inv 0 n = 0 := by
  simp only [BinaryInverse.mod_inv, zero_add]
  cases h : n.toNat with
  | zero => simp [BinaryInverse.binGo]
  | succ k => simp [BinaryInverse.binGo]
